import Mathlib

/-!
# Verification of the localsafe.eth multisig coordination engine

Shallow embedding of the core algorithms of the repository:
message-hash domain construction (`src/app/utils/messageHashing.ts`),
owner-management encoding and the deployment step machine
(`src/unnamed/part_001`), the pending transaction queue store
(`src/app/provider/SafeTxProvider.tsx`), nonce arbitration
(`src/app/components/TokenTransferModal.tsx`) and the owner-modal
threshold validation (`src/app/components/ManageOwnersModal.tsx`).

JavaScript strings are modelled as Lean `String`s (the relevant values
are ASCII, where JS code-unit comparison coincides with `String` order);
JS numbers holding nonces and thresholds are modelled as `Int`.
-/

namespace LocalSafe

/-! ## JS string comparison

`safeVersion >= "1.3.0"` in JS compares UTF-16 code units
lexicographically.  We model the code-unit comparison explicitly on the
lists of code points. -/

/-- Lexicographic strict-less-than on code-unit lists, as JS `<` on strings. -/
def jsLtCodeUnits : List Nat → List Nat → Bool
  | _, [] => false
  | [], _ :: _ => true
  | a :: as, b :: bs =>
    if a < b then true
    else if b < a then false
    else jsLtCodeUnits as bs

/-- JS `s >= t` on strings: not (s < t) under code-unit lexicographic order. -/
def jsStringGe (s t : String) : Bool :=
  ! jsLtCodeUnits (s.data.map Char.toNat) (t.data.map Char.toNat)

/-! ## SafeMessage EIP-712 domain (messageHashing.ts, calculateSafeMessageHashes) -/

/-- The SafeMessage EIP-712 domain object: either `{chainId, verifyingContract}`
or `{verifyingContract}` with no chainId member. -/
inductive SafeMessageDomain
  | withChainId (chainId : Nat) (verifyingContract : String)
  | noChainId (verifyingContract : String)
  deriving DecidableEq, Repr

/-- Whether the domain object has a `chainId` member. -/
def SafeMessageDomain.hasChainId : SafeMessageDomain → Bool
  | .withChainId _ _ => true
  | .noChainId _ => false

/-- Domain construction inside `calculateSafeMessageHashes`:
`const includeChainId = safeVersion >= "1.3.0"` followed by the conditional
object literal. -/
def buildSafeMessageDomain (safeAddress : String) (chainId : Nat)
    (safeVersion : String) : SafeMessageDomain :=
  let includeChainId := jsStringGe safeVersion "1.3.0"
  if includeChainId then .withChainId chainId safeAddress
  else .noChainId safeAddress

/-! ## Owner-management encoder (part_001, createBatchedOwnerManagementTransaction,
createRemoveOwnerTransaction; ManageOwnersModal.tsx, handleCreateTransaction) -/

/-- The sentinel address heading the Safe owners linked list. -/
def SENTINEL : String := "0x0000000000000000000000000000000000000001"

/-- A requested owner change: `{type: "add" | "remove", address}`. -/
inductive OwnerChange
  | add (address : String)
  | remove (address : String)
  deriving DecidableEq, Repr

/-- `c.type === "remove"`. -/
def OwnerChange.isRemove : OwnerChange → Bool
  | .remove _ => true
  | .add _ => false

/-- `c.type === "add"`. -/
def OwnerChange.isAdd : OwnerChange → Bool
  | .add _ => true
  | .remove _ => false

/-- The address carried by a change. -/
def OwnerChange.address : OwnerChange → String
  | .add a => a
  | .remove a => a

/-- One encoded Safe contract call (the `encodeFunctionData` payloads). -/
inductive SafeCall
  | swapOwner (prevOwner oldOwner newOwner : String)
  | removeOwner (prevOwner owner : String) (threshold : Int)
  | addOwnerWithThreshold (owner : String) (threshold : Int)
  | changeThreshold (threshold : Int)
  deriving DecidableEq, Repr

def SafeCall.isSwapOwner : SafeCall → Bool
  | .swapOwner _ _ _ => true
  | _ => false

def SafeCall.isRemoveOwner : SafeCall → Bool
  | .removeOwner _ _ _ => true
  | _ => false

def SafeCall.isAddOwnerWithThreshold : SafeCall → Bool
  | .addOwnerWithThreshold _ _ => true
  | _ => false

def SafeCall.isChangeThreshold : SafeCall → Bool
  | .changeThreshold _ => true
  | _ => false

/-- JS `String.prototype.toLowerCase` on the ASCII addresses in play:
lower-case each character. -/
def jsToLower (s : String) : String :=
  String.mk (s.data.map Char.toLower)

/-- JS `Array.prototype.findIndex`: index of the first element satisfying
the predicate, with `-1` modelled as `none`. -/
def jsFindIndex {α : Type} (p : α → Bool) : List α → Option Nat
  | [] => none
  | x :: xs => if p x then some 0 else (jsFindIndex p xs).map (fun i => i + 1)

/-- `owners.findIndex((o) => o.toLowerCase() === addr.toLowerCase())`. -/
def findOwnerIndex (owners : List String) (addr : String) : Option Nat :=
  jsFindIndex (fun o => jsToLower o == jsToLower addr) owners

/-- Whether some owner matches `addr` case-insensitively. -/
def ownerPresent (owners : List String) (addr : String) : Bool :=
  owners.any (fun o => jsToLower o == jsToLower addr)

/-- `ownerIndex === 0 ? SENTINEL : owners[ownerIndex - 1]`.  The `getD`
default is never reached for an index produced by `findOwnerIndex`. -/
def prevOwnerOf (owners : List String) (ownerIndex : Nat) : String :=
  if ownerIndex = 0 then SENTINEL else owners.getD (ownerIndex - 1) SENTINEL

/-- The removal loop of `createBatchedOwnerManagementTransaction`:
encodes one `removeOwner(prevOwner, owner, threshold)` per removal, each
computed against the locally simulated `currentOwners` array which has
each already-encoded removal deleted (`currentOwners.filter((_, i) => i
!== ownerIndex)`).  A removal address not found throws.  Returns the
encoded calls together with the final simulated owners array. -/
def encodeRemovals (threshold : Int) :
    List OwnerChange → List String → Except String (List SafeCall × List String)
  | [], currentOwners => .ok ([], currentOwners)
  | removal :: rest, currentOwners =>
    match findOwnerIndex currentOwners removal.address with
    | none => .error ("Owner " ++ removal.address ++ " not found")
    | some ownerIndex =>
      match encodeRemovals threshold rest (currentOwners.eraseIdx ownerIndex) with
      | .error e => .error e
      | .ok (calls, finalOwners) =>
        .ok (SafeCall.removeOwner (prevOwnerOf currentOwners ownerIndex)
               removal.address threshold :: calls, finalOwners)

/-- The body of `createBatchedOwnerManagementTransaction` before the
threshold-change append: the single-swap optimization when exactly one
removal and one addition are requested, else the removal loop followed by
one `addOwnerWithThreshold(addr, threshold)` per addition. -/
def encodeOwnerChangesBody (owners : List String) (threshold : Int)
    (removals additions : List OwnerChange) : Except String (List SafeCall) :=
  match removals, additions with
  | [removal], [addition] =>
    match findOwnerIndex owners removal.address with
    | none => .error ("Owner " ++ removal.address ++ " not found")
    | some ownerIndex =>
      .ok [SafeCall.swapOwner (prevOwnerOf owners ownerIndex)
             removal.address addition.address]
  | removals, additions =>
    match encodeRemovals threshold removals owners with
    | .error e => .error e
    | .ok (removeCalls, _) =>
      .ok (removeCalls ++
        additions.map (fun a => SafeCall.addOwnerWithThreshold a.address threshold))

/-- `createBatchedOwnerManagementTransaction`: partition the changes, encode
the body, and append a trailing `changeThreshold(newThreshold)` exactly when
`newThreshold !== safeInfo.threshold`. -/
def createBatchedOwnerManagementTransaction (owners : List String)
    (threshold : Int) (changes : List OwnerChange) (newThreshold : Int) :
    Except String (List SafeCall) :=
  let removals := changes.filter (fun c => c.isRemove)
  let additions := changes.filter (fun c => c.isAdd)
  match encodeOwnerChangesBody owners threshold removals additions with
  | .error e => .error e
  | .ok body =>
    .ok (body ++ (if newThreshold ≠ threshold
                  then [SafeCall.changeThreshold newThreshold] else []))

/-- `createRemoveOwnerTransaction`: single-removal encoding with the same
sentinel / predecessor lookup. -/
def createRemoveOwnerTransaction (owners : List String)
    (ownerToRemove : String) (newThreshold : Int) : Except String SafeCall :=
  match findOwnerIndex owners ownerToRemove with
  | none => .error "Owner not found"
  | some ownerIndex =>
    .ok (SafeCall.removeOwner (prevOwnerOf owners ownerIndex)
           ownerToRemove newThreshold)

/-- The validation prefix of `handleCreateTransaction` in
`ManageOwnersModal.tsx`: rejects an out-of-range threshold, then a no-op
change set, then hands the assembled change list to `onBatchUpdate`. -/
def handleCreateTransaction (owners ownersToRemove ownersToAdd : List String)
    (threshold newThreshold : Int) : Except String (List OwnerChange × Int) :=
  let finalOwnerCount : Int :=
    (owners.length : Int) - (ownersToRemove.length : Int) + (ownersToAdd.length : Int)
  if newThreshold < 1 ∨ newThreshold > finalOwnerCount then
    .error "Threshold must be between 1 and final owner count"
  else if ¬(ownersToRemove.length > 0 ∨ ownersToAdd.length > 0
            ∨ newThreshold ≠ threshold) then
    .error "No changes to apply"
  else
    .ok (ownersToRemove.map (fun a => OwnerChange.remove a)
          ++ ownersToAdd.map (fun a => OwnerChange.add a), newThreshold)

/-! ## Next available nonce (TokenTransferModal.tsx) -/

/-- `Math.max(...queuedNonces)` over a non-empty list, with the code's
fallback `safeInfo.nonce - 1` for the empty case. -/
def highestQueued (queuedNonces : List Int) (onChainNonce : Int) : Int :=
  match queuedNonces with
  | [] => onChainNonce - 1
  | x :: xs => xs.foldl max x

/-- The `nextAvailableNonce` memo:
`Math.max(highestQueued + 1, safeInfo.nonce)`. -/
def nextAvailableNonce (queuedNonces : List Int) (onChainNonce : Int) : Int :=
  max (highestQueued queuedNonces onChainNonce + 1) onChainNonce

/-- Maximum of a non-empty list of nonces (specification-side description). -/
def listMax (x : Int) (xs : List Int) : Int := xs.foldl max x

/-! ## Pending transaction queue store (SafeTxProvider.tsx)

An `EthSafeTransaction` is modelled by its nonce plus an opaque payload
identifier standing for all remaining data and signatures. -/

/-- A queued Safe transaction: `data.nonce` plus everything else. -/
structure StoredSafeTx where
  nonce : Int
  payloadId : Nat
  deriving DecidableEq, Repr

/-- Ascending-nonce order, the comparator
`(a, b) => Number(a.data.nonce) - Number(b.data.nonce)`. -/
def nonceLe (a b : StoredSafeTx) : Prop := a.nonce ≤ b.nonce

instance : DecidableRel nonceLe := fun a b => Int.decLe a.nonce b.nonce

instance : IsTotal StoredSafeTx nonceLe := ⟨fun a b => le_total a.nonce b.nonce⟩

instance : IsTrans StoredSafeTx nonceLe := ⟨fun _ _ _ hab hbc => le_trans hab hbc⟩

/-- `existingTxs.sort((a, b) => Number(a.data.nonce) - Number(b.data.nonce))`:
a stable sort by ascending nonce (JS `Array.prototype.sort` is stable). -/
def sortByNonce (txs : List StoredSafeTx) : List StoredSafeTx :=
  List.insertionSort nonceLe txs

/-- The find-replace-or-push step shared by `saveTransaction` and the
`importTx` merge loop: replace the first entry whose nonce matches, else
push at the end. -/
def upsertByNonce (txs : List StoredSafeTx) (tx : StoredSafeTx) : List StoredSafeTx :=
  match jsFindIndex (fun t => t.nonce == tx.nonce) txs with
  | some i => txs.set i tx
  | none => txs ++ [tx]

/-- `saveTransaction` on the collection stored under one
`(safeAddress, chainId)` key: upsert by nonce, then sort by nonce. -/
def saveTransaction (txs : List StoredSafeTx) (tx : StoredSafeTx) : List StoredSafeTx :=
  sortByNonce (upsertByNonce txs tx)

/-- The merge step of `importTx` for one key: start from the existing
collection, add-or-replace each imported transaction by nonce, and sort
once at the end; when the parsed import holds no transactions the store is
left untouched (`if (transactions.length > 0)`). -/
def importTxMerge (existing imported : List StoredSafeTx) : List StoredSafeTx :=
  match imported with
  | [] => existing
  | _ => sortByNonce (imported.foldl upsertByNonce existing)

/-- `getTransaction`: look up the key in the in-memory map and return
`txs && txs.length > 0 ? txs[0] : null`; the store is returned unchanged
because the function only reads it. -/
def getTransaction (store : List (String × List StoredSafeTx)) (key : String) :
    Option StoredSafeTx × List (String × List StoredSafeTx) :=
  match store.find? (fun kv => kv.1 == key) with
  | some kv =>
    (match kv.2 with
     | [] => none
     | t :: _ => some t, store)
  | none => (none, store)

/-! ## Deployment step machine (part_001, deployUndeployedSafe) -/

/-- A deploy step status. -/
inductive StepStatus
  | pending
  | running
  | success
  | error
  deriving DecidableEq, Repr

/-- One entry of the deployment step array:
`{step, status, error?, txHash?}`. -/
structure DeployStep where
  step : String
  status : StepStatus
  errorMsg : Option String
  txHash : Option String
  deriving DecidableEq, Repr

/-- Modelled from the spec: `DEFAULT_DEPLOY_STEPS` is defined in
`src/app/utils/constants.ts`, which is not among the provided sources.
Per the spec (§3 DeploymentExecution, §4.5 Deployment Orchestrator) the
template is an ordered fixed-length list of four named steps —
BuildingDeploymentTx, Broadcasting, Confirming, VerifyingDeployed — each
starting as `pending` with no error and no txHash. -/
def DEFAULT_DEPLOY_STEPS : List DeployStep :=
  [⟨"BuildingDeploymentTx", .pending, none, none⟩,
   ⟨"Broadcasting", .pending, none, none⟩,
   ⟨"Confirming", .pending, none, none⟩,
   ⟨"VerifyingDeployed", .pending, none, none⟩]

/-- The outcomes of the four awaited external operations of one deployment
attempt: building the deployment transaction (plus obtaining the external
signer), broadcasting it (returning the transaction hash), waiting for the
receipt, and verifying the Safe is deployed. -/
structure DeployOutcomes where
  createTx : Except String Unit
  sendTx : Except String String
  waitReceipt : Except String Unit
  verifyDeployed : Except String Unit

/-- `deployUndeployedSafe`: starts from a fresh copy of
`DEFAULT_DEPLOY_STEPS` and walks the four try/catch blocks of the source,
mutating step statuses, error messages and txHash exactly as the code
does, returning the final steps array. -/
def deployUndeployedSafe (env : DeployOutcomes) : List DeployStep :=
  match DEFAULT_DEPLOY_STEPS with
  | [s0, s1, s2, s3] =>
    match env.createTx with
    | .error m => [{ s0 with status := .error, errorMsg := some m }, s1, s2, s3]
    | .ok _ =>
      let t0 := { s0 with status := .success }
      match env.sendTx with
      | .error m => [t0, { s1 with status := .error, errorMsg := some m }, s2, s3]
      | .ok txHash =>
        let t1 := { s1 with status := .success, txHash := some txHash }
        match env.waitReceipt with
        | .error m => [t0, t1, { s2 with status := .error, errorMsg := some m }, s3]
        | .ok _ =>
          let t2 := { s2 with status := .success, txHash := some txHash }
          match env.verifyDeployed with
          | .error m =>
            [t0, t1, t2, { s3 with status := .error, errorMsg := some m,
                                   txHash := some txHash }]
          | .ok _ =>
            [t0, t1, t2, { s3 with status := .success, txHash := some txHash }]
  | other => other

/-! ## personal_sign hashing (messageHashing.ts, calculatePersonalSignHash)

`ethers.toUtf8String` is modelled byte-for-byte: parse the `0x` hex string
into bytes, then strictly decode UTF-8 (rejecting stray or missing
continuation bytes, overlong encodings, surrogate code points and
out-of-range code points, as ethers' strict `onError` does).  The EIP-191
keccak itself lives in the external ethers library, so it stays an
abstract function parameter. -/

/-- `message.startsWith("0x")`. -/
def startsWith0x (s : String) : Bool :=
  match s.data with
  | '0' :: 'x' :: _ => true
  | _ => false

/-- Value of one hex digit, `none` for a non-hex character. -/
def hexDigitVal? (c : Char) : Option Nat :=
  if 48 ≤ c.toNat ∧ c.toNat ≤ 57 then some (c.toNat - 48)
  else if 97 ≤ c.toNat ∧ c.toNat ≤ 102 then some (c.toNat - 87)
  else if 65 ≤ c.toNat ∧ c.toNat ≤ 70 then some (c.toNat - 55)
  else none

/-- Hex digit pairs to bytes; fails on odd length or non-hex characters. -/
def hexPairsToBytes? : List Char → Option (List Nat)
  | [] => some []
  | c1 :: c2 :: rest =>
    match hexDigitVal? c1, hexDigitVal? c2, hexPairsToBytes? rest with
    | some hi, some lo, some bs => some ((16 * hi + lo) :: bs)
    | _, _, _ => none
  | [_] => none

/-- `ethers.getBytes` on a string: requires the `0x` prefix and valid hex. -/
def getBytes? (s : String) : Option (List Nat) :=
  if startsWith0x s then hexPairsToBytes? (s.data.drop 2) else none

/-- Strict UTF-8 decoding of a byte list into code points, as ethers'
`toUtf8String` with the default (throwing) error handling. -/
def utf8Decode? : List Nat → Option (List Char)
  | [] => some []
  | b :: rest =>
    if b < 0x80 then
      match utf8Decode? rest with
      | some cs => some (Char.ofNat b :: cs)
      | none => none
    else if b < 0xC0 then none
    else if b < 0xE0 then
      match rest with
      | b1 :: rest1 =>
        if 0x80 ≤ b1 ∧ b1 < 0xC0 then
          let cp := (b - 0xC0) * 0x40 + (b1 - 0x80)
          if cp < 0x80 then none
          else match utf8Decode? rest1 with
            | some cs => some (Char.ofNat cp :: cs)
            | none => none
        else none
      | [] => none
    else if b < 0xF0 then
      match rest with
      | b1 :: b2 :: rest2 =>
        if (0x80 ≤ b1 ∧ b1 < 0xC0) ∧ (0x80 ≤ b2 ∧ b2 < 0xC0) then
          let cp := (b - 0xE0) * 0x1000 + (b1 - 0x80) * 0x40 + (b2 - 0x80)
          if cp < 0x800 then none
          else if 0xD800 ≤ cp ∧ cp ≤ 0xDFFF then none
          else match utf8Decode? rest2 with
            | some cs => some (Char.ofNat cp :: cs)
            | none => none
        else none
      | _ => none
    else if b < 0xF8 then
      match rest with
      | b1 :: b2 :: b3 :: rest3 =>
        if (0x80 ≤ b1 ∧ b1 < 0xC0) ∧ (0x80 ≤ b2 ∧ b2 < 0xC0)
            ∧ (0x80 ≤ b3 ∧ b3 < 0xC0) then
          let cp := (b - 0xF0) * 0x40000 + (b1 - 0x80) * 0x1000
                      + (b2 - 0x80) * 0x40 + (b3 - 0x80)
          if cp < 0x10000 then none
          else if 0x10FFFF < cp then none
          else match utf8Decode? rest3 with
            | some cs => some (Char.ofNat cp :: cs)
            | none => none
        else none
      | _ => none
    else none

/-- `ethers.toUtf8String` on a hex payload, `none` where ethers throws. -/
def toUtf8String? (s : String) : Option String :=
  match getBytes? s with
  | none => none
  | some bytes =>
    match utf8Decode? bytes with
    | none => none
    | some cs => some (String.mk cs)

/-- `calculatePersonalSignHash`: decode a `0x` payload as UTF-8 when
possible (falling back to the verbatim string when decoding throws), then
apply the EIP-191 hash. -/
def calculatePersonalSignHash (hashMessage : String → String)
    (message : String) : String :=
  let decodedMessage :=
    if startsWith0x message then
      match toUtf8String? message with
      | some s => s
      | none => message
    else message
  hashMessage decodedMessage

end LocalSafe

namespace LocalSafe

/-- **C1.** For every safe address, chain id and version string,
`calculateSafeMessageHashes` builds the SafeMessage domain with a
`chainId` member exactly when the version string compares `>= "1.3.0"`
lexicographically; in particular version `"1.4.1"` includes the chain id
and `"1.10.0"` does not. -/
theorem safeMessageDomain_chainId_iff_version_ge
    (safeAddress : String) (chainId : Nat) (safeVersion v1 v2 : String) :
    ((buildSafeMessageDomain safeAddress chainId safeVersion).hasChainId
        = jsStringGe safeVersion "1.3.0")
    ∧ (jsStringGe v1 "1.3.0" = true →
        buildSafeMessageDomain safeAddress chainId v1
          = .withChainId chainId safeAddress)
    ∧ (jsStringGe v2 "1.3.0" = false →
        buildSafeMessageDomain safeAddress chainId v2
          = .noChainId safeAddress)
    ∧ buildSafeMessageDomain safeAddress chainId "1.4.1"
        = .withChainId chainId safeAddress
    ∧ buildSafeMessageDomain safeAddress chainId "1.10.0"
        = .noChainId safeAddress := by
  refine ⟨?_, ?_, ?_, ?_, ?_⟩
  · by_cases h : jsStringGe safeVersion "1.3.0" = true
    · simp [buildSafeMessageDomain, h, SafeMessageDomain.hasChainId]
    · simp only [Bool.not_eq_true] at h
      simp [buildSafeMessageDomain, h, SafeMessageDomain.hasChainId]
  · intro h; simp [buildSafeMessageDomain, h]
  · intro h; simp [buildSafeMessageDomain, h]
  · rfl
  · rfl

/-- Witness for C1 at concrete versions. -/
theorem safeMessageDomain_chainId_witness :
    ((buildSafeMessageDomain "0xSafe" 1 "1.4.1").hasChainId
        = jsStringGe "1.4.1" "1.3.0")
    ∧ buildSafeMessageDomain "0xSafe" 1 "1.4.1"
        = .withChainId 1 "0xSafe"
    ∧ buildSafeMessageDomain "0xSafe" 1 "1.10.0"
        = .noChainId "0xSafe" := by
  obtain ⟨h1, h2, h3, _, _⟩ :=
    safeMessageDomain_chainId_iff_version_ge "0xSafe" 1 "1.4.1" "1.4.1" "1.10.0"
  exact ⟨h1, h2 (by decide), h3 (by decide)⟩

/-- **C2.** A change set with exactly one removal (present among the current
owners) and exactly one addition produces exactly one `swapOwner` call and no
`removeOwner` or `addOwnerWithThreshold` call; for owners `[A,B,C]`, removing
`B` and adding `D` with unchanged threshold yields the single call
`swapOwner(A, B, D)`. -/
theorem createBatched_single_swap (owners : List String) (threshold : Int)
    (changes : List OwnerChange) (newThreshold : Int) (b d : String) (i : Nat)
    (hrem : changes.filter (fun c => c.isRemove) = [OwnerChange.remove b])
    (hadd : changes.filter (fun c => c.isAdd) = [OwnerChange.add d])
    (hfind : findOwnerIndex owners b = some i) :
    (∃ calls, createBatchedOwnerManagementTransaction owners threshold changes newThreshold
        = .ok calls
      ∧ calls.countP (fun c => c.isSwapOwner) = 1
      ∧ calls.countP (fun c => c.isRemoveOwner) = 0
      ∧ calls.countP (fun c => c.isAddOwnerWithThreshold) = 0)
    ∧ createBatchedOwnerManagementTransaction
        ["0xA", "0xB", "0xC"] 2 [OwnerChange.remove "0xB", OwnerChange.add "0xD"] 2
        = .ok [SafeCall.swapOwner "0xA" "0xB" "0xD"] := by
  constructor
  · refine ⟨[SafeCall.swapOwner (prevOwnerOf owners i) b d]
      ++ (if newThreshold ≠ threshold
          then [SafeCall.changeThreshold newThreshold] else []), ?_, ?_, ?_, ?_⟩
    · simp only [createBatchedOwnerManagementTransaction, hrem, hadd,
        encodeOwnerChangesBody, OwnerChange.address, hfind]
    · by_cases h : newThreshold = threshold <;>
        simp [h, List.countP_cons, SafeCall.isSwapOwner]
    · by_cases h : newThreshold = threshold <;>
        simp [h, List.countP_cons, SafeCall.isRemoveOwner]
    · by_cases h : newThreshold = threshold <;>
        simp [h, List.countP_cons, SafeCall.isAddOwnerWithThreshold]
  · rfl

/-- Witness for C2 at a concrete input. -/
theorem createBatched_single_swap_witness :
    (∃ calls, createBatchedOwnerManagementTransaction
        ["0xA", "0xB", "0xC"] 2 [OwnerChange.remove "0xB", OwnerChange.add "0xD"] 3
        = .ok calls
      ∧ calls.countP (fun c => c.isSwapOwner) = 1
      ∧ calls.countP (fun c => c.isRemoveOwner) = 0
      ∧ calls.countP (fun c => c.isAddOwnerWithThreshold) = 0)
    ∧ createBatchedOwnerManagementTransaction
        ["0xA", "0xB", "0xC"] 2 [OwnerChange.remove "0xB", OwnerChange.add "0xD"] 2
        = .ok [SafeCall.swapOwner "0xA" "0xB" "0xD"] :=
  createBatched_single_swap ["0xA", "0xB", "0xC"] 2
    [OwnerChange.remove "0xB", OwnerChange.add "0xD"] 3 "0xB" "0xD" 1
    (by decide) (by decide) (by decide)

/-- **C5.** The next available nonce equals `max(max(queuedNonces) + 1, n)`
for a non-empty queue and `n` for an empty queue; `{5,7}` with on-chain
nonce `3` gives `8`, and an empty queue with on-chain nonce `3` gives `3`. -/
theorem nextAvailableNonce_spec (onChainNonce : Int) :
    (∀ x : Int, ∀ xs : List Int,
      nextAvailableNonce (x :: xs) onChainNonce
        = max (listMax x xs + 1) onChainNonce)
    ∧ nextAvailableNonce [] onChainNonce = onChainNonce
    ∧ nextAvailableNonce [5, 7] 3 = 8
    ∧ nextAvailableNonce [] 3 = 3 := by
  refine ⟨fun x xs => rfl, ?_, by decide, by decide⟩
  simp [nextAvailableNonce, highestQueued]

theorem jsFindIndex_eq_none_iff {α : Type} (p : α → Bool) (l : List α) :
    jsFindIndex p l = none ↔ ∀ x ∈ l, p x = false := by
  induction l with
  | nil => simp [jsFindIndex]
  | cons x xs ih =>
    by_cases h : p x <;> simp [jsFindIndex, h, ih]

theorem findOwnerIndex_eq_none (owners : List String) (a : String)
    (h : ownerPresent owners a = false) : findOwnerIndex owners a = none := by
  rw [findOwnerIndex, jsFindIndex_eq_none_iff]
  intro x hx
  simp only [ownerPresent, List.any_eq_false] at h
  simpa using h x hx

theorem ownerPresent_sublist_false (cur owners : List String) (a : String)
    (hs : List.Sublist cur owners) (h : ownerPresent owners a = false) :
    ownerPresent cur a = false := by
  simp only [ownerPresent, List.any_eq_false] at h ⊢
  exact fun o ho => h o (hs.subset ho)

/-- **C3.** Every encoded removal uses the sentinel as `prevOwner` for index
0 and `owners[i-1]` for index `i>0`, both in `createRemoveOwnerTransaction`
and in the batched removal loop, and each successive lookup in the loop is
performed against the owners array with all previously encoded removals
already deleted. -/
theorem removal_prevOwner_spec (owners0 owners1 currentOwners : List String)
    (a0 a1 : String) (t0 t1 thr : Int) (j i : Nat)
    (removal : OwnerChange) (rest : List OwnerChange) :
    (findOwnerIndex owners0 a0 = some 0 →
      createRemoveOwnerTransaction owners0 a0 t0
        = .ok (SafeCall.removeOwner SENTINEL a0 t0))
    ∧ (findOwnerIndex owners1 a1 = some (j + 1) →
      createRemoveOwnerTransaction owners1 a1 t1
        = .ok (SafeCall.removeOwner (owners1.getD j SENTINEL) a1 t1))
    ∧ (findOwnerIndex currentOwners removal.address = some i →
      encodeRemovals thr (removal :: rest) currentOwners
        = Except.map
            (fun p => (SafeCall.removeOwner (prevOwnerOf currentOwners i)
                         removal.address thr :: p.1, p.2))
            (encodeRemovals thr rest (currentOwners.eraseIdx i)))
    ∧ prevOwnerOf currentOwners 0 = SENTINEL
    ∧ (∀ k : Nat, prevOwnerOf currentOwners (k + 1)
        = currentOwners.getD k SENTINEL) := by
  refine ⟨?_, ?_, ?_, by simp [prevOwnerOf], fun k => by simp [prevOwnerOf]⟩
  · intro h
    simp [createRemoveOwnerTransaction, h, prevOwnerOf]
  · intro h
    simp [createRemoveOwnerTransaction, h, prevOwnerOf]
  · intro h
    simp only [encodeRemovals, h]
    cases hrec : encodeRemovals thr rest (currentOwners.eraseIdx i) with
    | error e => simp [Except.map]
    | ok p => simp [Except.map]

/-- Witness for C3 at concrete inputs. -/
theorem removal_prevOwner_spec_witness :
    createRemoveOwnerTransaction ["0xa", "0xb"] "0xA" 1
        = .ok (SafeCall.removeOwner SENTINEL "0xA" 1)
    ∧ createRemoveOwnerTransaction ["0xA", "0xB"] "0xB" 1
        = .ok (SafeCall.removeOwner (["0xA", "0xB"].getD 0 SENTINEL) "0xB" 1)
    ∧ encodeRemovals 2 [OwnerChange.remove "0xB", OwnerChange.remove "0xC"]
          ["0xA", "0xB", "0xC"]
        = Except.map
            (fun p => (SafeCall.removeOwner (prevOwnerOf ["0xA", "0xB", "0xC"] 1)
                         (OwnerChange.remove "0xB").address 2 :: p.1, p.2))
            (encodeRemovals 2 [OwnerChange.remove "0xC"]
              ((["0xA", "0xB", "0xC"] : List String).eraseIdx 1)) := by
  obtain ⟨h1, h2, h3, _, _⟩ :=
    removal_prevOwner_spec ["0xa", "0xb"] ["0xA", "0xB"] ["0xA", "0xB", "0xC"]
      "0xA" "0xB" 1 1 2 0 1 (OwnerChange.remove "0xB") [OwnerChange.remove "0xC"]
  exact ⟨h1 (by decide), h2 (by decide), h3 (by decide)⟩

theorem encodeRemovals_ok_shape (thr : Int) :
    ∀ (rs : List OwnerChange) (cur : List String)
      (calls : List SafeCall) (fowners : List String),
      encodeRemovals thr rs cur = .ok (calls, fowners) →
      ∀ c ∈ calls, ∃ p o, c = SafeCall.removeOwner p o thr := by
  intro rs
  induction rs with
  | nil =>
    intro cur calls fowners h c hc
    simp only [encodeRemovals, Except.ok.injEq, Prod.mk.injEq] at h
    rw [← h.1] at hc
    cases hc
  | cons r rest ih =>
    intro cur calls fowners h c hc
    cases hidx : findOwnerIndex cur r.address with
    | none =>
      simp only [encodeRemovals, hidx] at h
      exact absurd h (by simp)
    | some i =>
      cases hrec : encodeRemovals thr rest (cur.eraseIdx i) with
      | error e =>
        simp only [encodeRemovals, hidx, hrec] at h
        exact absurd h (by simp)
      | ok q =>
        obtain ⟨calls', fowners'⟩ := q
        simp only [encodeRemovals, hidx, hrec, Except.ok.injEq, Prod.mk.injEq] at h
        rw [← h.1] at hc
        rcases List.mem_cons.mp hc with rfl | hmem
        · exact ⟨prevOwnerOf cur i, r.address, rfl⟩
        · exact ih (cur.eraseIdx i) calls' fowners' hrec c hmem

theorem encodeOwnerChangesBody_ok_shape (owners : List String) (thr : Int)
    (removals additions : List OwnerChange) (body : List SafeCall)
    (h : encodeOwnerChangesBody owners thr removals additions = .ok body) :
    ∀ c ∈ body, c.isChangeThreshold = false
      ∧ (∀ p o t, c = SafeCall.removeOwner p o t → t = thr)
      ∧ (∀ o t, c = SafeCall.addOwnerWithThreshold o t → t = thr) := by
  revert h
  unfold encodeOwnerChangesBody
  split
  · next removal addition =>
    intro h c hc
    cases hidx : findOwnerIndex owners removal.address with
    | none => rw [hidx] at h; cases h
    | some i =>
      rw [hidx] at h
      simp only [Except.ok.injEq] at h
      rw [← h] at hc
      rcases List.mem_cons.mp hc with rfl | hmem
      · refine ⟨rfl, ?_, ?_⟩
        · intro p o t heq; simp at heq
        · intro o t heq; simp at heq
      · cases hmem
  · intro h c hc
    cases hrem : encodeRemovals thr removals owners with
    | error e => rw [hrem] at h; cases h
    | ok q =>
      obtain ⟨removeCalls, fowners⟩ := q
      rw [hrem] at h
      simp only [Except.ok.injEq] at h
      rw [← h] at hc
      rcases List.mem_append.mp hc with hmem | hmem
      · obtain ⟨p, o, rfl⟩ :=
          encodeRemovals_ok_shape thr removals owners removeCalls fowners hrem c hmem
        refine ⟨rfl, ?_, ?_⟩
        · intro p' o' t heq
          injection heq with h1 h2 h3
          exact h3.symm
        · intro o' t heq; simp at heq
      · obtain ⟨a, _, rfl⟩ := List.mem_map.mp hmem
        refine ⟨rfl, ?_, ?_⟩
        · intro p' o' t heq; simp at heq
        · intro o' t heq
          injection heq with h1 h2
          exact h2.symm

/-- **C4.** A `changeThreshold(newThreshold)` call is appended exactly when
`newThreshold` differs from the current threshold, it is always the last
call of the batch, and every `removeOwner` / `addOwnerWithThreshold` call
carries the pre-change (current) threshold value. -/
theorem changeThreshold_append_last (owners : List String) (threshold : Int)
    (changes : List OwnerChange) (newThreshold : Int) (calls : List SafeCall)
    (h : createBatchedOwnerManagementTransaction owners threshold changes newThreshold
          = .ok calls) :
    (newThreshold = threshold →
      calls.countP (fun c => c.isChangeThreshold) = 0)
    ∧ (newThreshold ≠ threshold →
      calls.getLast? = some (SafeCall.changeThreshold newThreshold)
      ∧ calls.countP (fun c => c.isChangeThreshold) = 1)
    ∧ (∀ p o t, SafeCall.removeOwner p o t ∈ calls → t = threshold)
    ∧ (∀ o t, SafeCall.addOwnerWithThreshold o t ∈ calls → t = threshold) := by
  simp only [createBatchedOwnerManagementTransaction] at h
  cases hbody : encodeOwnerChangesBody owners threshold
      (changes.filter fun c => c.isRemove) (changes.filter fun c => c.isAdd) with
  | error e => rw [hbody] at h; cases h
  | ok body =>
    rw [hbody] at h
    simp only [Except.ok.injEq] at h
    have hshape := encodeOwnerChangesBody_ok_shape owners threshold
      (changes.filter fun c => c.isRemove) (changes.filter fun c => c.isAdd) body hbody
    refine ⟨?_, ?_, ?_, ?_⟩
    · intro heq
      rw [← h, if_neg (by simp [heq]), List.append_nil]
      exact List.countP_eq_zero.mpr fun c hc => by simp [(hshape c hc).1]
    · intro hne
      rw [← h, if_pos hne]
      constructor
      · exact List.getLast?_concat body
      · rw [List.countP_append]
        have h0 : body.countP (fun c => c.isChangeThreshold) = 0 :=
          List.countP_eq_zero.mpr fun c hc => by simp [(hshape c hc).1]
        rw [h0]
        rfl
    · intro p o t hmem
      rw [← h] at hmem
      rcases List.mem_append.mp hmem with hm | hm
      · exact (hshape _ hm).2.1 p o t rfl
      · by_cases hne : newThreshold ≠ threshold
        · rw [if_pos hne] at hm
          rcases List.mem_cons.mp hm with heq | hnil
          · cases heq
          · cases hnil
        · rw [if_neg hne] at hm; cases hm
    · intro o t hmem
      rw [← h] at hmem
      rcases List.mem_append.mp hmem with hm | hm
      · exact (hshape _ hm).2.2 o t rfl
      · by_cases hne : newThreshold ≠ threshold
        · rw [if_pos hne] at hm
          rcases List.mem_cons.mp hm with heq | hnil
          · cases heq
          · cases hnil
        · rw [if_neg hne] at hm; cases hm

/-- Witness for C4 at a concrete input: two removals plus a lowered
threshold. -/
theorem changeThreshold_append_last_witness :
    ∃ calls,
      createBatchedOwnerManagementTransaction ["0xA", "0xB", "0xC"] 2
          [OwnerChange.remove "0xA", OwnerChange.remove "0xB"] 1 = .ok calls
      ∧ calls.getLast? = some (SafeCall.changeThreshold 1)
      ∧ calls.countP (fun c => c.isChangeThreshold) = 1
      ∧ (∀ p o t, SafeCall.removeOwner p o t ∈ calls → t = 2) := by
  have h : createBatchedOwnerManagementTransaction ["0xA", "0xB", "0xC"] 2
      [OwnerChange.remove "0xA", OwnerChange.remove "0xB"] 1
      = .ok [SafeCall.removeOwner SENTINEL "0xA" 2,
             SafeCall.removeOwner SENTINEL "0xB" 2,
             SafeCall.changeThreshold 1] := rfl
  obtain ⟨_, h2, h3, _⟩ := changeThreshold_append_last ["0xA", "0xB", "0xC"] 2
    [OwnerChange.remove "0xA", OwnerChange.remove "0xB"] 1 _ h
  exact ⟨_, h, (h2 (by decide)).1, (h2 (by decide)).2, h3⟩

theorem encodeRemovals_error_of_missing (thr : Int) (owners : List String)
    (a : String) (h : ownerPresent owners a = false) :
    ∀ (rs : List OwnerChange) (cur : List String), List.Sublist cur owners →
      (∃ rr ∈ rs, OwnerChange.address rr = a) →
      ∃ x, encodeRemovals thr rs cur = .error ("Owner " ++ x ++ " not found") := by
  intro rs
  induction rs with
  | nil =>
    rintro cur _ ⟨rr, hm, _⟩
    cases hm
  | cons r0 rest ih =>
    rintro cur hsub hex
    cases hidx : findOwnerIndex cur r0.address with
    | none => exact ⟨r0.address, by simp [encodeRemovals, hidx]⟩
    | some i =>
      obtain ⟨rr, hm, hrra⟩ := hex
      rcases List.mem_cons.mp hm with rfl | hmem
      · exfalso
        have hcur : ownerPresent cur a = false :=
          ownerPresent_sublist_false cur owners a hsub h
        rw [hrra] at hidx
        rw [findOwnerIndex_eq_none cur a hcur] at hidx
        cases hidx
      · obtain ⟨x, hx⟩ := ih (cur.eraseIdx i)
          ((List.eraseIdx_sublist cur i).trans hsub) ⟨rr, hmem, hrra⟩
        exact ⟨x, by simp [encodeRemovals, hidx, hx]⟩

theorem encodeOwnerChangesBody_error_of_missing (owners : List String)
    (thr : Int) (removals additions : List OwnerChange) (a : String)
    (hmem : ∃ rr ∈ removals, OwnerChange.address rr = a)
    (h : ownerPresent owners a = false) :
    ∃ x, encodeOwnerChangesBody owners thr removals additions
      = .error ("Owner " ++ x ++ " not found") := by
  unfold encodeOwnerChangesBody
  split
  · next removal addition =>
    obtain ⟨rr, hm, hrra⟩ := hmem
    rcases List.mem_cons.mp hm with rfl | hmem'
    · have hnone : findOwnerIndex owners rr.address = none := by
        rw [hrra]; exact findOwnerIndex_eq_none owners a h
      rw [hnone]
      exact ⟨rr.address, rfl⟩
    · cases hmem'
  · obtain ⟨x, hx⟩ := encodeRemovals_error_of_missing thr owners a h removals
      owners (List.Sublist.refl owners) hmem
    rw [hx]
    exact ⟨x, rfl⟩

/-- **C9.** Requesting removal of an address absent from the current owners
makes the batched owner-management encoding fail with an owner-not-found
error (no transaction is built), and a `newThreshold` below 1 or above the
final owner count is rejected by the modal validation before any call is
encoded. -/
theorem ownerManagement_error_handling (owners : List String) (threshold : Int)
    (changes : List OwnerChange) (newThreshold : Int) (r : String)
    (owners2 toRemove toAdd : List String) (thr2 newThr2 : Int) :
    (OwnerChange.remove r ∈ changes → ownerPresent owners r = false →
      ∃ a, createBatchedOwnerManagementTransaction owners threshold changes newThreshold
        = .error ("Owner " ++ a ++ " not found"))
    ∧ (newThr2 < 1 ∨ newThr2 > (owners2.length : Int) - (toRemove.length : Int)
          + (toAdd.length : Int) →
      handleCreateTransaction owners2 toRemove toAdd thr2 newThr2
        = .error "Threshold must be between 1 and final owner count") := by
  constructor
  · intro hmem hpres
    have hfilter : OwnerChange.remove r ∈ changes.filter (fun c => c.isRemove) :=
      List.mem_filter.mpr ⟨hmem, rfl⟩
    obtain ⟨a, ha⟩ := encodeOwnerChangesBody_error_of_missing owners threshold
      (changes.filter fun c => c.isRemove) (changes.filter fun c => c.isAdd) r
      ⟨OwnerChange.remove r, hfilter, rfl⟩ hpres
    refine ⟨a, ?_⟩
    simp only [createBatchedOwnerManagementTransaction, ha]
  · intro hrange
    simp only [handleCreateTransaction]
    rw [if_pos hrange]

/-- Witness for C9 at concrete inputs. -/
theorem ownerManagement_error_handling_witness :
    (∃ a, createBatchedOwnerManagementTransaction ["0xA"] 1
        [OwnerChange.remove "0xZ"] 1
      = .error ("Owner " ++ a ++ " not found"))
    ∧ handleCreateTransaction ["0xA"] [] [] 1 0
        = .error "Threshold must be between 1 and final owner count" := by
  obtain ⟨h1, h2⟩ := ownerManagement_error_handling ["0xA"] 1
    [OwnerChange.remove "0xZ"] 1 "0xZ" ["0xA"] [] [] 1 0
  exact ⟨h1 (by decide) (by decide), h2 (by decide)⟩

/-- **C7.** Each deployment attempt starts from a fresh copy of the step
template; an exception at any step marks that step `error` with the message
captured, leaves every later step `pending`, keeps every earlier step
`success`, and preserves any txHash already captured; a failure at the
broadcasting step yields statuses `[success, error, pending, pending]`
with no txHash anywhere. -/
theorem deploySteps_halt_on_error (env : DeployOutcomes) :
    (∀ m, env.createTx = .error m →
      deployUndeployedSafe env =
        [⟨"BuildingDeploymentTx", .error, some m, none⟩,
         ⟨"Broadcasting", .pending, none, none⟩,
         ⟨"Confirming", .pending, none, none⟩,
         ⟨"VerifyingDeployed", .pending, none, none⟩])
    ∧ (∀ m, env.createTx = .ok () → env.sendTx = .error m →
      deployUndeployedSafe env =
        [⟨"BuildingDeploymentTx", .success, none, none⟩,
         ⟨"Broadcasting", .error, some m, none⟩,
         ⟨"Confirming", .pending, none, none⟩,
         ⟨"VerifyingDeployed", .pending, none, none⟩]
      ∧ (deployUndeployedSafe env).map (fun s => s.status)
          = [.success, .error, .pending, .pending]
      ∧ ∀ s ∈ deployUndeployedSafe env, s.txHash = none)
    ∧ (∀ h m, env.createTx = .ok () → env.sendTx = .ok h →
        env.waitReceipt = .error m →
      deployUndeployedSafe env =
        [⟨"BuildingDeploymentTx", .success, none, none⟩,
         ⟨"Broadcasting", .success, none, some h⟩,
         ⟨"Confirming", .error, some m, none⟩,
         ⟨"VerifyingDeployed", .pending, none, none⟩])
    ∧ (∀ h m, env.createTx = .ok () → env.sendTx = .ok h →
        env.waitReceipt = .ok () → env.verifyDeployed = .error m →
      deployUndeployedSafe env =
        [⟨"BuildingDeploymentTx", .success, none, none⟩,
         ⟨"Broadcasting", .success, none, some h⟩,
         ⟨"Confirming", .success, none, some h⟩,
         ⟨"VerifyingDeployed", .error, some m, some h⟩]) := by
  obtain ⟨c, s, w, v⟩ := env
  refine ⟨?_, ?_, ?_, ?_⟩
  · intro m hc
    subst hc
    rfl
  · intro m hc hs
    subst hc; subst hs
    refine ⟨rfl, rfl, ?_⟩
    intro s hsm
    simp only [deployUndeployedSafe, DEFAULT_DEPLOY_STEPS, List.mem_cons,
      List.not_mem_nil, or_false] at hsm
    rcases hsm with rfl | rfl | rfl | rfl <;> rfl
  · intro h m hc hs hw
    subst hc; subst hs; subst hw
    rfl
  · intro h m hc hs hw hv
    subst hc; subst hs; subst hw; subst hv
    rfl

/-- Witness for C7: broadcasting failure. -/
theorem deploySteps_halt_on_error_witness :
    deployUndeployedSafe ⟨.ok (), .error "nonce too low", .ok (), .ok ()⟩ =
        [⟨"BuildingDeploymentTx", .success, none, none⟩,
         ⟨"Broadcasting", .error, some "nonce too low", none⟩,
         ⟨"Confirming", .pending, none, none⟩,
         ⟨"VerifyingDeployed", .pending, none, none⟩]
    ∧ (deployUndeployedSafe ⟨.ok (), .error "nonce too low", .ok (), .ok ()⟩).map
        (fun s => s.status) = [.success, .error, .pending, .pending]
    ∧ ∀ s ∈ deployUndeployedSafe ⟨.ok (), .error "nonce too low", .ok (), .ok ()⟩,
        s.txHash = none :=
  (deploySteps_halt_on_error ⟨.ok (), .error "nonce too low", .ok (), .ok ()⟩).2.1
    "nonce too low" rfl rfl

/-- **C8.** `calculatePersonalSignHash` hashes the UTF-8 decoding of a
`0x`-prefixed payload when decoding succeeds, and the verbatim input
otherwise (no `0x` prefix, or decoding fails); the result is deterministic
across repeated calls with identical input. -/
theorem personalSignHash_spec (hashMessage : String → String)
    (msg0 msg1 msg2 msg3 d : String) :
    (startsWith0x msg0 = true → toUtf8String? msg0 = some d →
      calculatePersonalSignHash hashMessage msg0 = hashMessage d)
    ∧ (startsWith0x msg1 = false →
      calculatePersonalSignHash hashMessage msg1 = hashMessage msg1)
    ∧ (toUtf8String? msg2 = none →
      calculatePersonalSignHash hashMessage msg2 = hashMessage msg2)
    ∧ calculatePersonalSignHash hashMessage msg3
        = calculatePersonalSignHash hashMessage msg3 := by
  refine ⟨?_, ?_, ?_, rfl⟩
  · intro hpre hdec
    simp [calculatePersonalSignHash, hpre, hdec]
  · intro hpre
    simp [calculatePersonalSignHash, hpre]
  · intro hdec
    by_cases hpre : startsWith0x msg2 <;>
      simp [calculatePersonalSignHash, hpre, hdec]

/-- Witness for C8: `"0x68656c6c6f"` decodes to `"hello"`, `"hi"` has no
`0x` prefix, `"0xzz"` fails hex decoding. -/
theorem personalSignHash_spec_witness :
    calculatePersonalSignHash (fun s => String.append "keccak:" s) "0x68656c6c6f"
        = String.append "keccak:" "hello"
    ∧ calculatePersonalSignHash (fun s => String.append "keccak:" s) "hi"
        = String.append "keccak:" "hi"
    ∧ calculatePersonalSignHash (fun s => String.append "keccak:" s) "0xzz"
        = String.append "keccak:" "0xzz" := by
  obtain ⟨h1, h2, h3, _⟩ := personalSignHash_spec
    (fun s => String.append "keccak:" s) "0x68656c6c6f" "hi" "0xzz" "" "hello"
  exact ⟨h1 (by decide) (by decide), h2 (by decide), h3 (by decide)⟩

/-- **C10.** `getTransaction` returns the queued transaction with the
lowest nonce (the head of the nonce-sorted collection) for the key, `null`
when nothing is queued, and never mutates the store. -/
theorem getTransaction_head_of_sorted
    (store : List (String × List StoredSafeTx)) (key : String)
    (kv : String × List StoredSafeTx) (t : StoredSafeTx)
    (rest : List StoredSafeTx) :
    ((getTransaction store key).2 = store)
    ∧ (store.find? (fun e => e.1 == key) = none →
        (getTransaction store key).1 = none)
    ∧ (store.find? (fun e => e.1 == key) = some kv → kv.2 = [] →
        (getTransaction store key).1 = none)
    ∧ (store.find? (fun e => e.1 == key) = some kv →
        List.Sorted nonceLe kv.2 → kv.2 = t :: rest →
        (getTransaction store key).1 = some t
        ∧ ∀ u ∈ kv.2, t.nonce ≤ u.nonce) := by
  refine ⟨?_, ?_, ?_, ?_⟩
  · cases hf : store.find? (fun e => e.1 == key) with
    | none => simp [getTransaction, hf]
    | some kv' =>
      cases hkv : kv'.2 with
      | nil => simp [getTransaction, hf, hkv]
      | cons a l => simp [getTransaction, hf, hkv]
  · intro hf
    simp [getTransaction, hf]
  · intro hf hnil
    simp [getTransaction, hf, hnil]
  · intro hf hsorted hcons
    constructor
    · simp [getTransaction, hf, hcons]
    · intro u hu
      rw [hcons] at hu hsorted
      rcases List.mem_cons.mp hu with rfl | hmem
      · exact le_refl _
      · exact (List.sorted_cons.mp hsorted).1 u hmem

/-- Witness for C10 at a concrete store. -/
theorem getTransaction_head_of_sorted_witness :
    ((getTransaction [("0xS-1", [⟨1, 0⟩, ⟨2, 1⟩])] "0xS-1").2
        = [("0xS-1", [⟨1, 0⟩, ⟨2, 1⟩])])
    ∧ (getTransaction [("0xS-1", [⟨1, 0⟩, ⟨2, 1⟩])] "0xS-1").1
        = some ⟨1, 0⟩
    ∧ ∀ u ∈ (("0xS-1", [(⟨1, 0⟩ : StoredSafeTx), ⟨2, 1⟩]) :
        String × List StoredSafeTx).2, (1 : Int) ≤ u.nonce := by
  obtain ⟨h1, _, _, h4⟩ := getTransaction_head_of_sorted
    [("0xS-1", [⟨1, 0⟩, ⟨2, 1⟩])] "0xS-1" ("0xS-1", [⟨1, 0⟩, ⟨2, 1⟩])
    ⟨1, 0⟩ [⟨2, 1⟩]
  obtain ⟨ha, hb⟩ := h4 (by decide) (by decide) rfl
  exact ⟨h1, ha, hb⟩

theorem upsertByNonce_nil (tx : StoredSafeTx) : upsertByNonce [] tx = [tx] := rfl

theorem upsertByNonce_cons_hit (x : StoredSafeTx) (xs : List StoredSafeTx)
    (tx : StoredSafeTx) (h : x.nonce = tx.nonce) :
    upsertByNonce (x :: xs) tx = tx :: xs := by
  simp [upsertByNonce, jsFindIndex, h]

theorem upsertByNonce_cons_miss (x : StoredSafeTx) (xs : List StoredSafeTx)
    (tx : StoredSafeTx) (h : x.nonce ≠ tx.nonce) :
    upsertByNonce (x :: xs) tx = x :: upsertByNonce xs tx := by
  have hb : (x.nonce == tx.nonce) = false := by simp [h]
  simp only [upsertByNonce, jsFindIndex, hb, Bool.false_eq_true, if_false]
  cases hf : jsFindIndex (fun t => t.nonce == tx.nonce) xs with
  | none => simp [hf]
  | some i => simp [hf]

theorem upsertByNonce_unique (tx : StoredSafeTx) :
    ∀ txs : List StoredSafeTx, (txs.map (fun t => t.nonce)).Nodup →
      ∀ t ∈ upsertByNonce txs tx, t.nonce = tx.nonce → t = tx := by
  intro txs
  induction txs with
  | nil =>
    intro _ t ht _
    rw [upsertByNonce_nil] at ht
    exact List.mem_singleton.mp ht
  | cons x xs ih =>
    intro hnd t ht hn
    rw [List.map_cons, List.nodup_cons] at hnd
    by_cases hx : x.nonce = tx.nonce
    · rw [upsertByNonce_cons_hit x xs tx hx] at ht
      rcases List.mem_cons.mp ht with rfl | hmem
      · rfl
      · exfalso
        apply hnd.1
        rw [hx, ← hn]
        exact List.mem_map_of_mem _ hmem
    · rw [upsertByNonce_cons_miss x xs tx hx] at ht
      rcases List.mem_cons.mp ht with rfl | hmem
      · exact absurd hn hx
      · exact ih hnd.2 t hmem hn

/-- **C6.** `saveTransaction` replaces the existing queued entry with the
same nonce (if any) and otherwise appends, `importTx` merges each imported
transaction the same way (a conflicting nonce overwrites the local entry),
and after either operation the stored collection is sorted by nonce
ascending. -/
theorem saveTransaction_importTx_spec
    (txsA : List StoredSafeTx) (txA : StoredSafeTx) (i : Nat)
    (txsB : List StoredSafeTx) (txB : StoredSafeTx)
    (txsC : List StoredSafeTx) (txC : StoredSafeTx)
    (existing imported existingD : List StoredSafeTx) (impD : StoredSafeTx) :
    List.Sorted nonceLe (saveTransaction txsA txA)
    ∧ (jsFindIndex (fun t => t.nonce == txA.nonce) txsA = some i →
        List.Perm (saveTransaction txsA txA) (txsA.set i txA))
    ∧ (jsFindIndex (fun t => t.nonce == txB.nonce) txsB = none →
        List.Perm (saveTransaction txsB txB) (txsB ++ [txB]))
    ∧ ((txsC.map (fun t => t.nonce)).Nodup →
        ∀ t ∈ saveTransaction txsC txC, t.nonce = txC.nonce → t = txC)
    ∧ (imported ≠ [] → List.Sorted nonceLe (importTxMerge existing imported))
    ∧ importTxMerge existing [] = existing
    ∧ List.Perm (importTxMerge existing imported)
        (imported.foldl upsertByNonce existing)
    ∧ ((existingD.map (fun t => t.nonce)).Nodup →
        ∀ t ∈ importTxMerge existingD [impD], t.nonce = impD.nonce → t = impD) := by
  refine ⟨?_, ?_, ?_, ?_, ?_, rfl, ?_, ?_⟩
  · exact List.sorted_insertionSort nonceLe _
  · intro hf
    have : upsertByNonce txsA txA = txsA.set i txA := by
      simp [upsertByNonce, hf]
    rw [saveTransaction, ← this]
    exact List.perm_insertionSort nonceLe _
  · intro hf
    have : upsertByNonce txsB txB = txsB ++ [txB] := by
      simp [upsertByNonce, hf]
    rw [saveTransaction, ← this]
    exact List.perm_insertionSort nonceLe _
  · intro hnd t ht hn
    have hmem : t ∈ upsertByNonce txsC txC :=
      (List.perm_insertionSort nonceLe _).mem_iff.mp ht
    exact upsertByNonce_unique txC txsC hnd t hmem hn
  · intro hne
    cases imported with
    | nil => exact absurd rfl hne
    | cons x xs => exact List.sorted_insertionSort nonceLe _
  · cases imported with
    | nil => exact List.Perm.refl _
    | cons x xs => exact List.perm_insertionSort nonceLe _
  · intro hnd t ht hn
    have hmem : t ∈ upsertByNonce existingD impD := by
      have : t ∈ List.foldl upsertByNonce existingD [impD] :=
        (List.perm_insertionSort nonceLe _).mem_iff.mp ht
      simpa using this
    exact upsertByNonce_unique impD existingD hnd t hmem hn

/-- Witness for C6 at concrete collections. -/
theorem saveTransaction_importTx_spec_witness :
    List.Sorted nonceLe (saveTransaction [⟨1, 0⟩, ⟨2, 0⟩] ⟨2, 5⟩)
    ∧ List.Perm (saveTransaction [⟨1, 0⟩, ⟨2, 0⟩] ⟨2, 5⟩)
        (([⟨1, 0⟩, ⟨2, 0⟩] : List StoredSafeTx).set 1 ⟨2, 5⟩)
    ∧ List.Perm (saveTransaction [⟨1, 0⟩] ⟨3, 7⟩)
        (([⟨1, 0⟩] : List StoredSafeTx) ++ [⟨3, 7⟩])
    ∧ (∀ t ∈ saveTransaction [⟨1, 0⟩, ⟨2, 0⟩] ⟨2, 5⟩,
        t.nonce = (2 : Int) → t = ⟨2, 5⟩)
    ∧ List.Sorted nonceLe (importTxMerge [⟨1, 0⟩] [⟨1, 5⟩, ⟨2, 6⟩])
    ∧ (∀ t ∈ importTxMerge [⟨1, 0⟩, ⟨2, 0⟩] [(⟨2, 3⟩ : StoredSafeTx)],
        t.nonce = (2 : Int) → t = ⟨2, 3⟩) := by
  obtain ⟨h1, h2, h3, h4, h5, _, _, h8⟩ := saveTransaction_importTx_spec
    [⟨1, 0⟩, ⟨2, 0⟩] ⟨2, 5⟩ 1 [⟨1, 0⟩] ⟨3, 7⟩ [⟨1, 0⟩, ⟨2, 0⟩] ⟨2, 5⟩
    [⟨1, 0⟩] [⟨1, 5⟩, ⟨2, 6⟩] [⟨1, 0⟩, ⟨2, 0⟩] ⟨2, 3⟩
  exact ⟨h1, h2 (by decide), h3 (by decide), h4 (by decide),
    h5 (by decide), h8 (by decide)⟩

end LocalSafe
